import Mathlib

/-!
Verification of the python-git-history-visualizer repository.

This file gives a shallow embedding of the core logic of the repository:

* `DependencyVisualizer.py` — the syntax walker / symbol resolver
  (`parse_file`), the whole-tree variant (`parse_python_files`) and the
  file-level collapse of the function dependency set;
* `GitVisualizer.py` — commit-record construction and per-file
  include/exclude filtering in `parse_commits`;
* `CodeVisualizer.py` — the sqlite-backed store (`process_dependencies`,
  `process_git_commits`) and the aggregation queries
  (`show_file_changes_from_git_scatter`, `show_file_dependencies`).

Python values are modelled as follows: strings are `String`, sets are
`Finset`, dicts are association lists (or `Finset` of rows for sqlite
tables), exceptions are `Except String`.
-/

deriving instance DecidableEq for Except

/-- Shapes of a python expression relevant to `parse_file`: the `ast` node
kinds the code inspects are `ast.Name`, `ast.Attribute` and `ast.Call`;
`subscript` and `constant` stand for every other node kind (the code only
ever tests `isinstance` against the first three). -/
inductive PyExpr where
  | name (id : String)
  | attr (value : PyExpr) (attrName : String)
  | call (func : PyExpr) (args : List PyExpr)
  | subscript (value : PyExpr)
  | constant

/-- All sub-expressions of an expression, the expression itself included:
the embedding of `ast.walk` restricted to expression nodes. -/
def walkExprs : PyExpr → List PyExpr
  | .name i => [.name i]
  | .attr v a => .attr v a :: walkExprs v
  | .subscript v => .subscript v :: walkExprs v
  | .constant => [.constant]
  | .call f args =>
      .call f args :: (walkExprs f ++ (args.attach.map (fun e => walkExprs e.1)).flatten)
decreasing_by
  all_goals simp_wf
  all_goals try omega
  all_goals (have h := List.sizeOf_lt_of_mem e.2; omega)

/-- A top-level function definition: its name and the expressions of its
body (the nodes `ast.walk(node)` ranges over inside `visit_FunctionDef`). -/
structure FunctionDef where
  name : String
  body : List PyExpr

/-- Resolution of one call target, from the body of the loop in
`parse_file` (DependencyVisualizer.py lines 57-74).  `imports` is the
dict of import bindings; lookup is embedded as association-list lookup.
Returns `none` exactly when the code hits `continue` (the call target is
neither an `ast.Attribute` nor an `ast.Name`).  For an attribute target,
`module` is the receiver identifier when the receiver is an `ast.Name`
and `None` otherwise; the python guard `if module and module in imports`
is truthiness on the string, hence the emptiness test. -/
def calleeOfCall (imports : List (String × String)) (relative_path : String) :
    PyExpr → Option String
  | .attr v a =>
      let module : Option String := match v with | .name i => some i | _ => none
      match module with
      | some m =>
          if m ≠ "" then
            match imports.lookup m with
            | some b => some (b ++ "." ++ a)
            | none => some (m ++ "." ++ a)
          else some (relative_path ++ "." ++ a)
      | none => some (relative_path ++ "." ++ a)
  | .name i =>
      (match imports.lookup i with
       | some b => some b
       | none => some (relative_path ++ "." ++ i))
  | _ => none

/-- The edge contributed by one walked node: `some (caller, callee)` when
the node is a call whose target resolves, `none` otherwise. -/
def edgeOfExpr (imports : List (String × String)) (relative_path caller : String) :
    PyExpr → Option (String × String)
  | .call f _ => (calleeOfCall imports relative_path f).map (fun c => (caller, c))
  | _ => none

/-- Fold step shared by `parse_file`: when the observation `g e` yields a
pair it is added to the accumulated set (`functions[...].add(callee)`),
otherwise the accumulator is unchanged (`continue`). -/
def insertOptStep {α β : Type} [DecidableEq β] (g : α → Option β)
    (acc : Finset β) (e : α) : Finset β :=
  match g e with
  | some x => insert x acc
  | none => acc

/-- The function-dependency edge set produced by `parse_file` for one
file: for each top-level function definition, each call observation in
its walked body is resolved and added under caller
`relative_path.<function-name>`; the dict-of-sets plus the final set
comprehension give set semantics, embedded as a `Finset`. -/
def parse_file (imports : List (String × String)) (relative_path : String)
    (funcs : List FunctionDef) : Finset (String × String) :=
  funcs.foldl (fun acc fd =>
    (fd.body.map walkExprs).flatten.foldl
      (insertOptStep (edgeOfExpr imports relative_path (relative_path ++ "." ++ fd.name)))
      acc) (∅ : Finset (String × String))

/-- Helper for `str.split` on a dot: accumulates the current segment in
reverse.  Structural recursion so that concrete evaluation reduces. -/
def splitDotAux : List Char → List Char → List (List Char)
  | [], acc => [acc.reverse]
  | c :: rest, acc =>
      if c = '.' then acc.reverse :: splitDotAux rest []
      else splitDotAux rest (c :: acc)

/-- Embedding of python `s.split(".")`. -/
def splitDot (s : String) : List String :=
  (splitDotAux s.toList []).map (fun l => String.mk l)

/-- Embedding of python `".".join(l)`. -/
def joinDot : List String → String
  | [] => ""
  | [x] => x
  | x :: rest => x ++ "." ++ joinDot rest

/-- File component of a symbol name, from `parse_python_files` lines
162-163: the dot-join of all dot-separated segments but the last. -/
def fileOfSymbol (s : String) : String := joinDot (splitDot s).dropLast

/-- Derivation of `self.file_dependencies` from
`self.function_dependencies` (DependencyVisualizer.py lines 161-164):
every function edge contributes the pair of its endpoint files; no edge
is filtered out. -/
def file_dependencies (fds : Finset (String × String)) : Finset (String × String) :=
  fds.image (fun e => (fileOfSymbol e.1, fileOfSymbol e.2))

/-- State of the sqlite database built by `CodeVisualizer`: one `Finset`
of rows per table, string keys as in the schema of
`build_db_if_not_exists`.  A commits row is (hash, author, date). -/
structure Store where
  files : Finset String
  functions : Finset (String × String)
  function_dependencies : Finset (String × String)
  commits : Finset (String × String × String)
  commit_files : Finset (String × String)
deriving DecidableEq

/-- Embedding of python `s.rsplit(".", 1)` unpacked into two variables:
splits at the last dot; when the string holds no dot the unpacking of a
singleton list raises a ValueError. -/
def rsplitDot1 (s : String) : Except String (String × String) :=
  match (splitDot s).reverse with
  | [] => .error "ValueError"
  | [_] => .error "ValueError"
  | x :: rest => .ok (joinDot rest.reverse, x)

/-- One iteration of the loop of `process_dependencies`
(CodeVisualizer.py lines 73-85): split caller and callee at the last
dot, insert-or-ignore both files, both (name, file) function rows, and
the (caller-name, callee-name) edge — the edge by bare function name. -/
def processEdge (st : Store) (e : String × String) : Except String Store :=
  match rsplitDot1 e.1 with
  | .error m => .error m
  | .ok (caller_file, caller_name) =>
      match rsplitDot1 e.2 with
      | .error m => .error m
      | .ok (callee_file, callee_name) =>
          .ok { st with
            files := insert callee_file (insert caller_file st.files),
            functions :=
              insert (callee_name, callee_file)
                (insert (caller_name, caller_file) st.functions),
            function_dependencies :=
              insert (caller_name, callee_name) st.function_dependencies }

/-- Embedding of `CodeVisualizer.process_dependencies`: fold of
`processEdge` over the edge set (iterated as a list). -/
def processDependencies (st : Store) : List (String × String) → Except String Store
  | [] => .ok st
  | e :: rest =>
      match processEdge st e with
      | .ok st2 => processDependencies st2 rest
      | .error m => .error m

/-- Embedding of the `git_commit` objects of GitVisualizer.py:
`__init__` assigns `author`, `date` and `files`; the `hash` attribute is
only present when some code assigns it, hence an `Option` — reading an
unassigned attribute raises AttributeError. -/
structure git_commit where
  author : String
  date : String
  files : List String
  hash : Option String
deriving DecidableEq

/-- Python attribute read: the value when the attribute was assigned,
AttributeError otherwise. -/
def getAttr {α : Type} (v : Option α) (attrName : String) : Except String α :=
  match v with
  | some x => .ok x
  | none => .error ("AttributeError: git_commit object has no attribute " ++ attrName)

/-- The check `SELECT hash FROM commits WHERE hash = ?` of
`process_git_commits`: does a commits row with this hash exist. -/
def hasCommitHash (st : Store) (h : String) : Bool :=
  decide (∃ r ∈ st.commits, r.1 = h)

/-- Body of the inner loop of `process_git_commits` (lines 101-109) for
one already-prefixed path: insert-or-ignore the files row, then plain
INSERT of the (hash, path) commit_files row — a duplicate key raises. -/
def insertCommitFile (st : Store) (h f : String) : Except String Store :=
  let st2 := { st with files := insert f st.files }
  if (h, f) ∈ st2.commit_files then
    .error "IntegrityError: UNIQUE constraint failed: commit_files"
  else .ok { st2 with commit_files := insert (h, f) st2.commit_files }

/-- Inner loop of `process_git_commits`: each changed file is stored
under the path prepended with ./python/ (line 102). -/
def processCommitFiles (st : Store) (h : String) : List String → Except String Store
  | [] => .ok st
  | f :: rest =>
      match insertCommitFile st h ("./python/" ++ f) with
      | .ok st2 => processCommitFiles st2 h rest
      | .error m => .error m

/-- One iteration of the outer loop of `process_git_commits`: read
`commit.hash` (AttributeError when never assigned), skip the commit
entirely when the hash is already present, otherwise insert the commits
row and every commit_files row. -/
def processCommit (st : Store) (c : git_commit) : Except String Store :=
  match getAttr c.hash "hash" with
  | .error m => .error m
  | .ok h =>
      if hasCommitHash st h then .ok st
      else
        processCommitFiles
          { st with commits := insert (h, c.author, c.date) st.commits } h c.files

/-- Embedding of `CodeVisualizer.process_git_commits`: fold of
`processCommit` over the commit list.  An uncaught exception means
`conn.commit()` is never reached, so the database is unchanged: the
`error` result carries no store. -/
def processGitCommits (st : Store) : List git_commit → Except String Store
  | [] => .ok st
  | c :: rest =>
      match processCommit st c with
      | .ok st2 => processGitCommits st2 rest
      | .error m => .error m

/-- Filter configuration of `GitVisualizer` (attributes set in
`__init__`, lines 31-34).  Regular-expression patterns are embedded as
their match functions on a file name; `re.match` anchors the pattern at
the start of the string, which is a property of the matcher functions
supplied at the interface. -/
structure FilterConfig where
  include_files : Option (List String)
  exclude_files : Option (List String)
  include_files_by_pattern : Option (List (String → Bool))
  exclude_files_by_pattern : Option (List (String → Bool))

/-- Python truthiness of an optional list attribute: `None` and the
empty list are falsy, exactly the guard `if self.include_files:`. -/
def truthy {α : Type} : Option (List α) → Bool
  | none => false
  | some l => !l.isEmpty

/-- Per-file filter of `GitVisualizer.parse_commits` (lines 67-83): the
four `continue` guards in source order; a file is kept when no guard
fires. -/
def keepFile (cfg : FilterConfig) (file : String) : Bool :=
  if truthy cfg.include_files && !(decide (file ∈ cfg.include_files.getD [])) then
    false
  else if truthy cfg.exclude_files && decide (file ∈ cfg.exclude_files.getD []) then
    false
  else if truthy cfg.include_files_by_pattern &&
      !((cfg.include_files_by_pattern.getD []).any (fun p => p file)) then
    false
  else if truthy cfg.exclude_files_by_pattern &&
      (cfg.exclude_files_by_pattern.getD []).any (fun p => p file) then
    false
  else true

/-- Raw commit record as extracted from the `git show` output in
`parse_commits` (commit_details indices 0-4): hash, author name,
subject, author date, changed-file list.  The subject is never read. -/
structure RawCommitRecord where
  hash : String
  author : String
  date : String
  files : List String

/-- Construction of one `git_commit` in `parse_commits` (lines 62-83):
`author`, `date` and the filtered `files` are assigned; the `hash`
attribute of the object is never assigned (commit_details[0] is unused),
so it stays absent. -/
def parse_commit_record (cfg : FilterConfig) (r : RawCommitRecord) : git_commit :=
  { author := r.author
    date := r.date
    files := r.files.filter (keepFile cfg)
    hash := none }

/-- Embedding of `GitVisualizer.parse_commits` over an
externally-supplied record stream: one `git_commit` per record, in
order. -/
def parse_commits (cfg : FilterConfig) (records : List RawCommitRecord) : List git_commit :=
  records.map (parse_commit_record cfg)

/-- SQLite LIKE with pattern %.py under the default (ASCII
case-insensitive) collation: the last three characters are, up to case,
`.py`. -/
def likePy (s : String) : Bool :=
  match s.toList.reverse with
  | y :: p :: d :: _ =>
      ((y == 'y') || (y == 'Y')) && ((p == 'p') || (p == 'P')) && (d == '.')
  | _ => false

/-- Join rows of `commits INNER JOIN commit_files ON c.hash =
cf.commit_hash` restricted by the WHERE clause (file_path LIKE %.py), the
FROM/WHERE part of the top-25 query of
`show_file_changes_from_git_scatter` (lines 137-146). -/
def topQueryRows (st : Store) :
    Finset ((String × String × String) × (String × String)) :=
  (Finset.product st.commits st.commit_files).filter
    (fun p => p.1.1 = p.2.1 ∧ likePy p.2.2 = true)

/-- The group keys of `GROUP BY cf.file_path` over the join rows. -/
def pyGroups (st : Store) : Finset String :=
  (topQueryRows st).image (fun p => p.2.2)

/-- The `count(*)` of one group. -/
def changeCount (st : Store) (f : String) : ℕ :=
  ((topQueryRows st).filter (fun p => p.2.2 = f)).card

/-- Relational semantics of the full top-25 query: SQL fixes the row
multiset, the descending order by `count(*)`, and the LIMIT, but states
no secondary sort key, so any enumeration of the groups that is
nonincreasing in count is an admissible output; the result is its first
25 entries. -/
def topQueryValid (st : Store) (r : List String) : Prop :=
  ∃ full : List String,
    full.Nodup ∧ full.toFinset = pyGroups st ∧
    full.Pairwise (fun a b => changeCount st b ≤ changeCount st a) ∧
    r = full.take 25

/-- The default file-dependency query of
`CodeVisualizer.show_file_dependencies` (lines 226-234): join
`function_dependencies` with `functions` on both endpoints by bare
function name and keep the pairs of owning files whose two files
differ (`WHERE f1.file_full_path != f2.file_full_path`), dedup by
SELECT DISTINCT. -/
def fileDepQuery (st : Store) : Finset (String × String) :=
  ((Finset.product st.functions st.functions).filter
    (fun p => (p.1.1, p.2.1) ∈ st.function_dependencies ∧ p.1.2 ≠ p.2.2)).image
    (fun p => (p.1.2, p.2.2))

/-- Python `max(node_counts) if node_counts else 1` (line 257). -/
def maxCount : List ℕ → ℕ
  | [] => 1
  | x :: xs => xs.foldl Nat.max x

/-- Python `min(node_counts) if node_counts else 0` (line 258). -/
def minCount : List ℕ → ℕ
  | [] => 0
  | x :: xs => xs.foldl Nat.min x

/-- Python `[changes_count_dict.get(node, 0) for node in G.nodes()]`
(line 256): nodes absent from the mapping default to 0. -/
def nodeCounts (changes : List (String × ℕ)) (nodes : List String) : List ℕ :=
  nodes.map (fun n => ((changes.lookup n).getD 0))

/-- Heat normalization of `show_file_dependencies` (line 260): per
count, `(count - min) / (max - min)` when `max > min`, else the constant
`0.5`; real division embedded in `ℚ`. -/
def normalizedCounts (l : List ℕ) : List ℚ :=
  l.map (fun (c : ℕ) =>
    if maxCount l > minCount l then
      ((c : ℚ) - (minCount l : ℚ)) / ((maxCount l : ℚ) - (minCount l : ℚ))
    else 1/2)

/-- Batch loop of `parse_python_files` (lines 130-136): each discovered
file is parsed by `ast.parse`; there is no try/except, so the first
parse failure propagates and ends the loop with no aggregate result.
The parse itself is the external `ast.parse`, supplied as a function
from path to outcome; `τ` is the type of parsed trees. -/
def parseBatch {τ : Type} (parseResult : String → Except String τ) :
    List String → Except String (List (String × τ))
  | [] => .ok []
  | f :: rest =>
      match parseResult f with
      | .ok t =>
          match parseBatch parseResult rest with
          | .ok l => .ok ((f, t) :: l)
          | .error m => .error m
      | .error m => .error m

/-- Componentwise table inclusion between two store states: every row of
`s` is a row of `t`.  All store operations only add rows, so runs are
monotone with respect to this order. -/
def storeLE (s t : Store) : Prop :=
  s.files ⊆ t.files ∧ s.functions ⊆ t.functions ∧
  s.function_dependencies ⊆ t.function_dependencies ∧
  s.commits ⊆ t.commits ∧ s.commit_files ⊆ t.commit_files

/-- The spec-side filter predicate of section 4.4, for the refinement
statement of the filter claim: every configured filter kind must pass,
an unconfigured kind is skipped.  Configured is the truthiness the code
tests (a present, non-empty list). -/
def passesFilters (cfg : FilterConfig) (file : String) : Prop :=
  (truthy cfg.include_files = true → file ∈ cfg.include_files.getD [])
  ∧ (truthy cfg.exclude_files = true → file ∉ cfg.exclude_files.getD [])
  ∧ (truthy cfg.include_files_by_pattern = true →
      ∃ p ∈ cfg.include_files_by_pattern.getD [], p file = true)
  ∧ (truthy cfg.exclude_files_by_pattern = true →
      ∀ p ∈ cfg.exclude_files_by_pattern.getD [], p file = false)

/-- The freshly created database: every table empty. -/
def emptyStore : Store := ⟨∅, ∅, ∅, ∅, ∅⟩

/-- A one-edge function dependency set for concrete runs. -/
def exampleDeps : List (String × String) := [("a.py.f", "b.py.g")]

/-- The store state after ingesting `exampleDeps` into `emptyStore`. -/
def exampleDepsStore : Store :=
  { files := {"b.py", "a.py"}
    functions := {("g", "b.py"), ("f", "a.py")}
    function_dependencies := {("f", "g")}
    commits := ∅
    commit_files := ∅ }

/-- A commit object that does carry a hash attribute, for concrete
store runs. -/
def exampleCommit : git_commit :=
  { author := "alice", date := "2024-01-01 00:00:00+0000"
    files := ["x.py"], hash := some "c1" }

/-- The store state after ingesting `exampleCommit` into `emptyStore`. -/
def exampleCommitStore : Store :=
  { files := {"./python/x.py"}
    functions := ∅
    function_dependencies := ∅
    commits := {("c1", "alice", "2024-01-01 00:00:00+0000")}
    commit_files := {("c1", "./python/x.py")} }

/-- A store whose two .py files are both changed exactly once: the two
groups of the top-25 query tie on count. -/
def exampleTopStore : Store :=
  { files := ∅
    functions := ∅
    function_dependencies := ∅
    commits := {("c1", "alice", "d1"), ("c2", "bob", "d2")}
    commit_files := {("c1", "b.py"), ("c2", "a.py")} }

/-- A concrete outcome of `ast.parse` over file paths: one file has a
syntax error, every other file parses (tree content irrelevant, stood in
by `0`). -/
def examplePyParse : String → Except String Nat :=
  fun f => if f = "bad.py" then .error "SyntaxError: invalid syntax" else .ok 0

/-- The filter configuration right after `GitVisualizer.__init__`: all
four attributes `None`. -/
def emptyFilterConfig : FilterConfig := ⟨none, none, none, none⟩

/-- A raw commit record as delivered by the `git show` output. -/
def exampleRecord : RawCommitRecord :=
  { hash := "deadbeef", author := "alice"
    date := "Mon Jan 1 00:00:00 2024 +0000", files := ["x.py"] }

lemma mem_foldl_insertOpt {α β : Type} [DecidableEq β] (g : α → Option β) :
    ∀ (l : List α) (acc : Finset β) (p : β),
      p ∈ l.foldl (insertOptStep g) acc →
      p ∈ acc ∨ ∃ e ∈ l, g e = some p := by
  intro l
  induction l with
  | nil => intro acc p hp; exact Or.inl hp
  | cons e rest ih =>
      intro acc p hp
      simp only [List.foldl_cons] at hp
      rcases ih _ p hp with h | ⟨e2, he2, hg⟩
      · rcases hge : g e with _ | x
        · rw [insertOptStep, hge] at h; exact Or.inl h
        · rw [insertOptStep, hge] at h
          rcases Finset.mem_insert.mp h with h1 | h1
          · exact Or.inr ⟨e, List.mem_cons_self .., by rw [hge, h1]⟩
          · exact Or.inl h1
      · exact Or.inr ⟨e2, List.mem_cons_of_mem _ he2, hg⟩

lemma mem_parse_file (imports : List (String × String)) (relative_path : String) :
    ∀ (funcs : List FunctionDef) (acc : Finset (String × String)) (p : String × String),
      p ∈ funcs.foldl (fun acc fd =>
        (fd.body.map walkExprs).flatten.foldl
          (insertOptStep (edgeOfExpr imports relative_path (relative_path ++ "." ++ fd.name)))
          acc) acc →
      p ∈ acc ∨ ∃ fd ∈ funcs, ∃ e ∈ (fd.body.map walkExprs).flatten,
        edgeOfExpr imports relative_path (relative_path ++ "." ++ fd.name) e = some p := by
  intro funcs
  induction funcs with
  | nil => intro acc p hp; exact Or.inl hp
  | cons fd rest ih =>
      intro acc p hp
      simp only [List.foldl_cons] at hp
      rcases ih _ p hp with h | ⟨fd2, hfd2, e, he, hg⟩
      · rcases mem_foldl_insertOpt _ _ _ _ h with h1 | ⟨e, he, hg⟩
        · exact Or.inl h1
        · exact Or.inr ⟨fd, List.mem_cons_self .., e, he, hg⟩
      · exact Or.inr ⟨fd2, List.mem_cons_of_mem _ hfd2, e, he, hg⟩

lemma edgeOfExpr_caller {imports : List (String × String)}
    {relative_path caller : String} {e : PyExpr} {p : String × String}
    (h : edgeOfExpr imports relative_path caller e = some p) : p.1 = caller := by
  cases e with
  | call f args =>
      rcases Option.map_eq_some'.mp h with ⟨c, _, hc⟩
      rw [← hc]
  | name i => simp [edgeOfExpr] at h
  | attr v a => simp [edgeOfExpr] at h
  | subscript v => simp [edgeOfExpr] at h
  | constant => simp [edgeOfExpr] at h

/-- C1: the symbol resolver of `parse_file` resolves first match wins: a
bare name bound in the import dict resolves to its binding; a bare name
not bound resolves to `relative_path.name`; an attribute access whose
receiver identifier is bound resolves to `binding.attr`; an attribute
access whose receiver identifier is not bound resolves to
`receiver.attr`.  Every edge of the per-file result has caller
`relative_path.<enclosing-function-name>`, and the result is a `Finset`
(set semantics, deduplicated). -/
theorem c1_symbol_resolver (imports : List (String × String)) (rp : String) :
    (∀ n b, imports.lookup n = some b →
      calleeOfCall imports rp (.name n) = some b)
  ∧ (∀ n, imports.lookup n = none →
      calleeOfCall imports rp (.name n) = some (rp ++ "." ++ n))
  ∧ (∀ r a b, r ≠ "" → imports.lookup r = some b →
      calleeOfCall imports rp (.attr (.name r) a) = some (b ++ "." ++ a))
  ∧ (∀ r a, r ≠ "" → imports.lookup r = none →
      calleeOfCall imports rp (.attr (.name r) a) = some (r ++ "." ++ a))
  ∧ (∀ funcs p, p ∈ parse_file imports rp funcs →
      ∃ fd ∈ funcs, p.1 = rp ++ "." ++ fd.name) := by
  refine ⟨?_, ?_, ?_, ?_, ?_⟩
  · intro n b h; simp [calleeOfCall, h]
  · intro n h; simp [calleeOfCall, h]
  · intro r a b hr h; simp [calleeOfCall, hr, h]
  · intro r a hr h; simp [calleeOfCall, hr, h]
  · intro funcs p hp
    rcases mem_parse_file imports rp funcs (∅ : Finset (String × String)) p hp
      with h | ⟨fd, hfd, e, _, hg⟩
    · simp at h
    · exact ⟨fd, hfd, edgeOfExpr_caller hg⟩

/-- Witness for C1 at a concrete file: import dict binding np to numpy,
file a.py; the bare name np resolves to numpy. -/
theorem c1_symbol_resolver_witness :
    calleeOfCall [("np", "numpy")] "a.py" (.name "np") = some "numpy" :=
  (c1_symbol_resolver [("np", "numpy")] "a.py").1 "np" "numpy" rfl


/-- C3 counterexample: the function dependency edge from a.py.f to
a.py.g has caller file equal to callee file, yet the derived
file-dependency set of `parse_python_files` (lines 161-164) contains the
corresponding self-edge (a.py, a.py): the in-memory derivation filters
nothing out. -/
theorem c3_counterexample :
    fileOfSymbol "a.py.f" = fileOfSymbol "a.py.g" ∧
    ("a.py", "a.py") ∈ file_dependencies {("a.py.f", "a.py.g")} := by
  decide

/-- C3 amended: self-edges are excluded only in the store-derived file
dependency query of `CodeVisualizer.show_file_dependencies` (WHERE
f1.file_full_path != f2.file_full_path): no pair returned by that query
has equal endpoints.  The in-memory `file_dependencies` set of
`DependencyVisualizer.parse_python_files` keeps self-edges. -/
theorem c3_no_self_loops_in_query (st : Store) :
    ∀ p ∈ fileDepQuery st, p.1 ≠ p.2 := by
  intro p hp
  rcases Finset.mem_image.mp hp with ⟨q, hq, hqe⟩
  rcases Finset.mem_filter.mp hq with ⟨_, _, hne⟩
  rw [← hqe]
  exact hne

/-- Witness for C3 at a concrete store: the query on the store holding
the edge (f, g) with f in a.py and g in b.py returns (a.py, b.py), and
the two files differ. -/
theorem c3_no_self_loops_in_query_witness :
    ("a.py", "b.py") ∈ fileDepQuery exampleDepsStore ∧
    ("a.py", "b.py").1 ≠ ("a.py", "b.py").2 :=
  ⟨by decide, c3_no_self_loops_in_query exampleDepsStore ("a.py", "b.py") (by decide)⟩

/-- C5 counterexample: with a batch holding bad.py (syntax error) and
good.py (parses fine, witnessed by the second conjunct), the batch loop
of `parse_python_files` propagates the syntax error: the run aborts with
no aggregate result and good.py is not delivered — there is no per-file
recovery. -/
theorem c5_counterexample :
    parseBatch examplePyParse ["bad.py", "good.py"] =
      .error "SyntaxError: invalid syntax" ∧
    parseBatch examplePyParse ["good.py"] = .ok [("good.py", 0)] := by
  decide

/-- C5 amended: a file that fails to parse is not reported per-file and
skipped; the exception propagates and the whole batch aborts with no
aggregate result (there is no try/except around `ast.parse`). -/
theorem c5_unparseable_aborts_batch {τ : Type}
    (parseResult : String → Except String τ) (files : List String)
    (f : String) (e : String) (hf : f ∈ files) (he : parseResult f = .error e) :
    ∃ msg, parseBatch parseResult files = .error msg := by
  induction files with
  | nil => cases hf
  | cons g rest ih =>
      rcases List.mem_cons.mp hf with rfl | hf2
      · exact ⟨e, by simp [parseBatch, he]⟩
      · cases hpg : parseResult g with
        | error m => exact ⟨m, by simp [parseBatch, hpg]⟩
        | ok t =>
            obtain ⟨msg, hmsg⟩ := ih hf2
            exact ⟨msg, by simp [parseBatch, hpg, hmsg]⟩

/-- Witness for C5 amended: the failing file placed last still aborts
the whole batch. -/
theorem c5_unparseable_aborts_batch_witness :
    ∃ msg, parseBatch examplePyParse ["good.py", "bad.py"] = .error msg :=
  c5_unparseable_aborts_batch examplePyParse ["good.py", "bad.py"] "bad.py"
    "SyntaxError: invalid syntax" (by decide) (by decide)

/-- C6 counterexample: the chained call a.b.c() has an attribute target
whose receiver is itself an attribute access, not a bare name; the claim
says it is silently skipped, but `parse_file` observes it (module is
None, the final else of lines 65-66) with callee relative_path.c. -/
theorem c6_counterexample :
    calleeOfCall [] "f.py" (.attr (.attr (.name "a") "b") "c") ≠ none ∧
    calleeOfCall [] "f.py" (.attr (.attr (.name "a") "b") "c") = some "f.py.c" := by
  decide

/-- C6 amended: a call whose target is neither a name nor an attribute
access (call-of-call, subscripted target, literal) is silently skipped
and raises nothing; but an attribute-access target whose receiver is
not a bare name IS observed, with callee `relative_path.attr`. -/
theorem c6_skipped_call_targets (imports : List (String × String)) (rp : String) :
    (∀ f args, calleeOfCall imports rp (.call f args) = none)
  ∧ (∀ v, calleeOfCall imports rp (.subscript v) = none)
  ∧ (calleeOfCall imports rp .constant = none)
  ∧ (∀ v a, (∀ i, v ≠ PyExpr.name i) →
      calleeOfCall imports rp (.attr v a) = some (rp ++ "." ++ a)) := by
  refine ⟨fun f args => rfl, fun v => rfl, rfl, ?_⟩
  intro v a hv
  cases v with
  | name i => exact absurd rfl (hv i)
  | attr v2 a2 => rfl
  | call f args => rfl
  | subscript v2 => rfl
  | constant => rfl

/-- Witness for C6 amended: an attribute call on a literal receiver is
observed with callee relative_path.m. -/
theorem c6_skipped_call_targets_witness :
    calleeOfCall [] "x.py" (.attr .constant "m") = some ("x.py" ++ "." ++ "m") :=
  (c6_skipped_call_targets [] "x.py").2.2.2 .constant "m" (fun _ h => nomatch h)

lemma storeLE_refl (s : Store) : storeLE s s :=
  ⟨subset_rfl, subset_rfl, subset_rfl, subset_rfl, subset_rfl⟩

lemma storeLE_trans {s t u : Store} (h1 : storeLE s t) (h2 : storeLE t u) :
    storeLE s u :=
  ⟨h1.1.trans h2.1, h1.2.1.trans h2.2.1, h1.2.2.1.trans h2.2.2.1,
   h1.2.2.2.1.trans h2.2.2.2.1, h1.2.2.2.2.trans h2.2.2.2.2⟩

lemma processEdge_eq_ok {s t : Store} {e : String × String}
    (h : processEdge s e = .ok t) :
    ∃ cf cn df dn, rsplitDot1 e.1 = .ok (cf, cn) ∧ rsplitDot1 e.2 = .ok (df, dn) ∧
      t = { s with
        files := insert df (insert cf s.files),
        functions := insert (dn, df) (insert (cn, cf) s.functions),
        function_dependencies := insert (cn, dn) s.function_dependencies } := by
  unfold processEdge at h
  split at h
  · cases h
  · rename_i cf cn heq1
    split at h
    · cases h
    · rename_i df dn heq2
      exact ⟨cf, cn, df, dn, heq1, heq2, (Except.ok.inj h).symm⟩

lemma processEdge_le {s t : Store} {e : String × String}
    (h : processEdge s e = .ok t) : storeLE s t := by
  obtain ⟨cf, cn, df, dn, _, _, ht⟩ := processEdge_eq_ok h
  subst ht
  exact ⟨(Finset.subset_insert _ _).trans (Finset.subset_insert _ _),
    (Finset.subset_insert _ _).trans (Finset.subset_insert _ _),
    Finset.subset_insert _ _, subset_rfl, subset_rfl⟩

lemma processEdge_absorb {s t u : Store} {e : String × String}
    (h : processEdge s e = .ok t) (hle : storeLE t u) : processEdge u e = .ok u := by
  obtain ⟨cf, cn, df, dn, h1, h2, ht⟩ := processEdge_eq_ok h
  subst ht
  have hf_cf : cf ∈ u.files := hle.1 (by simp)
  have hf_df : df ∈ u.files := hle.1 (by simp)
  have hfun_c : (cn, cf) ∈ u.functions := hle.2.1 (by simp)
  have hfun_d : (dn, df) ∈ u.functions := hle.2.1 (by simp)
  have hfd : (cn, dn) ∈ u.function_dependencies := hle.2.2.1 (by simp)
  have e1 : insert df (insert cf u.files) = u.files := by
    rw [Finset.insert_eq_self.mpr hf_cf, Finset.insert_eq_self.mpr hf_df]
  have e2 : insert (dn, df) (insert (cn, cf) u.functions) = u.functions := by
    rw [Finset.insert_eq_self.mpr hfun_c, Finset.insert_eq_self.mpr hfun_d]
  have e3 : insert (cn, dn) u.function_dependencies = u.function_dependencies :=
    Finset.insert_eq_self.mpr hfd
  simp only [processEdge, h1, h2, e1, e2, e3]

lemma processDependencies_le :
    ∀ (l : List (String × String)) (s t : Store),
      processDependencies s l = .ok t → storeLE s t := by
  intro l
  induction l with
  | nil =>
      intro s t h
      rw [processDependencies] at h
      rw [Except.ok.inj h]
      exact storeLE_refl t
  | cons e rest ih =>
      intro s t h
      rw [processDependencies] at h
      cases he : processEdge s e with
      | error m => rw [he] at h; cases h
      | ok s2 =>
          rw [he] at h
          exact storeLE_trans (processEdge_le he) (ih s2 t h)

lemma processDependencies_idem :
    ∀ (l : List (String × String)) (s t : Store),
      processDependencies s l = .ok t → processDependencies t l = .ok t := by
  intro l
  induction l with
  | nil => intro s t _; rfl
  | cons e rest ih =>
      intro s t h
      rw [processDependencies] at h
      cases he : processEdge s e with
      | error m => rw [he] at h; cases h
      | ok s2 =>
          rw [he] at h
          have hle : storeLE s2 t := processDependencies_le rest s2 t h
          have he2 : processEdge t e = .ok t := processEdge_absorb he hle
          rw [processDependencies, he2]
          exact ih s2 t h

lemma insertCommitFile_eq_ok {s t : Store} {h f : String}
    (hh : insertCommitFile s h f = .ok t) :
    (h, f) ∉ s.commit_files ∧
    t = { s with
          files := insert f s.files,
          commit_files := insert (h, f) s.commit_files } := by
  by_cases hmem : (h, f) ∈ s.commit_files
  · rw [insertCommitFile] at hh
    simp only [if_pos hmem] at hh
    cases hh
  · rw [insertCommitFile] at hh
    simp only [if_neg hmem] at hh
    exact ⟨hmem, (Except.ok.inj hh).symm⟩

lemma processCommitFiles_le {h : String} :
    ∀ (files : List String) (s t : Store),
      processCommitFiles s h files = .ok t → storeLE s t := by
  intro files
  induction files with
  | nil =>
      intro s t hh
      rw [processCommitFiles] at hh
      rw [Except.ok.inj hh]
      exact storeLE_refl t
  | cons f rest ih =>
      intro s t hh
      rw [processCommitFiles] at hh
      cases he : insertCommitFile s h ("./python/" ++ f) with
      | error m => rw [he] at hh; cases hh
      | ok s2 =>
          rw [he] at hh
          obtain ⟨_, hs2⟩ := insertCommitFile_eq_ok he
          subst hs2
          have step : storeLE s
              { s with
                files := insert ("./python/" ++ f) s.files,
                commit_files := insert (h, "./python/" ++ f) s.commit_files } :=
            ⟨Finset.subset_insert _ _, subset_rfl, subset_rfl, subset_rfl,
             Finset.subset_insert _ _⟩
          exact storeLE_trans step (ih _ t hh)

lemma hasCommitHash_mono {s t : Store} {h : String} (hle : storeLE s t)
    (hh : hasCommitHash s h = true) : hasCommitHash t h = true := by
  rw [hasCommitHash, decide_eq_true_eq] at hh ⊢
  obtain ⟨r, hr, hr1⟩ := hh
  exact ⟨r, hle.2.2.2.1 hr, hr1⟩

lemma processCommit_hash_mem {s t : Store} {c : git_commit}
    (hc : processCommit s c = .ok t) :
    ∃ hh, c.hash = some hh ∧ hasCommitHash t hh = true := by
  rw [processCommit] at hc
  cases hcc : c.hash with
  | none => rw [hcc] at hc; cases hc
  | some hh =>
      rw [hcc] at hc
      simp only [getAttr] at hc
      by_cases hmem : hasCommitHash s hh = true
      · rw [if_pos hmem] at hc
        rw [← Except.ok.inj hc]
        exact ⟨hh, rfl, hmem⟩
      · rw [if_neg hmem] at hc
        refine ⟨hh, rfl, ?_⟩
        have hle := processCommitFiles_le c.files _ t hc
        refine hasCommitHash_mono hle ?_
        rw [hasCommitHash, decide_eq_true_eq]
        exact ⟨(hh, c.author, c.date), by simp, rfl⟩

lemma processCommit_skip {u : Store} {c : git_commit} {hh : String}
    (h1 : c.hash = some hh) (h2 : hasCommitHash u hh = true) :
    processCommit u c = .ok u := by
  rw [processCommit, h1]
  simp only [getAttr]
  rw [if_pos h2]

lemma processGitCommits_le :
    ∀ (cs : List git_commit) (s t : Store),
      processGitCommits s cs = .ok t → storeLE s t := by
  intro cs
  induction cs with
  | nil =>
      intro s t h
      rw [processGitCommits] at h
      rw [Except.ok.inj h]
      exact storeLE_refl t
  | cons c rest ih =>
      intro s t h
      rw [processGitCommits] at h
      cases hc : processCommit s c with
      | error m => rw [hc] at h; cases h
      | ok s2 =>
          rw [hc] at h
          refine storeLE_trans ?_ (ih s2 t h)
          rw [processCommit] at hc
          cases hcc : c.hash with
          | none => rw [hcc] at hc; cases hc
          | some hh =>
              rw [hcc] at hc
              simp only [getAttr] at hc
              by_cases hmem : hasCommitHash s hh = true
              · rw [if_pos hmem] at hc
                rw [Except.ok.inj hc]
                exact storeLE_refl s2
              · rw [if_neg hmem] at hc
                refine storeLE_trans ?_ (processCommitFiles_le c.files _ s2 hc)
                exact ⟨subset_rfl, subset_rfl, subset_rfl,
                  Finset.subset_insert _ _, subset_rfl⟩

lemma processGitCommits_idem :
    ∀ (cs : List git_commit) (s t : Store),
      processGitCommits s cs = .ok t → processGitCommits t cs = .ok t := by
  intro cs
  induction cs with
  | nil => intro s t _; rfl
  | cons c rest ih =>
      intro s t h
      rw [processGitCommits] at h
      cases hc : processCommit s c with
      | error m => rw [hc] at h; cases h
      | ok s2 =>
          rw [hc] at h
          obtain ⟨hh, hhash, hmem2⟩ := processCommit_hash_mem hc
          have hle : storeLE s2 t := processGitCommits_le rest s2 t h
          have hmemt : hasCommitHash t hh = true := hasCommitHash_mono hle hmem2
          rw [processGitCommits, processCommit_skip hhash hmemt]
          exact ih s2 t h

/-- C2: ingestion into the store is idempotent.  Re-running
`process_dependencies` on the same edge list over the state it produced
leaves that state unchanged (all four INSERT OR IGNOREs absorb
duplicates), and re-running `process_git_commits` on the same commit
list leaves its result unchanged: a commit whose hash is already stored
is skipped entirely, with nothing re-inserted and nothing updated. -/
theorem c2_idempotent_ingestion (deps : List (String × String))
    (cs : List git_commit) :
    (∀ s t, processDependencies s deps = .ok t → processDependencies t deps = .ok t)
  ∧ (∀ s t, processGitCommits s cs = .ok t → processGitCommits t cs = .ok t)
  ∧ (∀ u (c : git_commit) hh, c.hash = some hh → hasCommitHash u hh = true →
      processCommit u c = .ok u) :=
  ⟨fun s t h => processDependencies_idem deps s t h,
   fun s t h => processGitCommits_idem cs s t h,
   fun _ _ _ h1 h2 => processCommit_skip h1 h2⟩

/-- Witness for C2 on concrete runs: ingesting the one-edge dependency
set and the one-commit list into the empty store, then re-ingesting
each over the resulting state, reproduces that state exactly. -/
theorem c2_idempotent_ingestion_witness :
    processDependencies emptyStore exampleDeps = .ok exampleDepsStore ∧
    processDependencies exampleDepsStore exampleDeps = .ok exampleDepsStore ∧
    processGitCommits emptyStore [exampleCommit] = .ok exampleCommitStore ∧
    processGitCommits exampleCommitStore [exampleCommit] = .ok exampleCommitStore :=
  have h1 : processDependencies emptyStore exampleDeps = .ok exampleDepsStore := by
    decide
  have h2 : processGitCommits emptyStore [exampleCommit] = .ok exampleCommitStore := by
    decide
  ⟨h1, (c2_idempotent_ingestion exampleDeps [exampleCommit]).1 _ _ h1,
   h2, (c2_idempotent_ingestion exampleDeps [exampleCommit]).2.1 _ _ h2⟩

lemma keepFile_iff (cfg : FilterConfig) (f : String) :
    keepFile cfg f = true ↔ passesFilters cfg f := by
  unfold keepFile passesFilters
  split_ifs with h1 h2 h3 h4
  · simp only [Bool.and_eq_true, Bool.not_eq_true', decide_eq_false_iff_not] at h1
    simp only [false_iff]
    intro hp
    exact h1.2 (hp.1 h1.1)
  · simp only [Bool.and_eq_true, decide_eq_true_eq] at h2
    simp only [false_iff]
    intro hp
    exact hp.2.1 h2.1 h2.2
  · simp only [Bool.and_eq_true, Bool.not_eq_true', List.any_eq_false] at h3
    simp only [false_iff]
    intro hp
    obtain ⟨p, hpmem, hpf⟩ := hp.2.2.1 h3.1
    exact absurd hpf (by simpa using h3.2 p hpmem)
  · simp only [Bool.and_eq_true, List.any_eq_true] at h4
    simp only [false_iff]
    intro hp
    obtain ⟨p, hpmem, hpf⟩ := h4.2
    exact absurd hpf (by simp [hp.2.2.2 h4.1 p hpmem])
  · simp only [true_iff]
    refine ⟨?_, ?_, ?_, ?_⟩
    · intro ht
      by_contra hmem
      exact h1 (by simp [ht, hmem])
    · intro ht hmem
      exact h2 (by simp [ht, hmem])
    · intro ht
      by_contra hnex
      push_neg at hnex
      apply h3
      have hany : (cfg.include_files_by_pattern.getD []).any (fun p => p f) = false := by
        rw [List.any_eq_false]
        intro p hp
        simpa using hnex p hp
      simp [ht, hany]
    · intro ht p hp
      by_contra hbne
      have hb : p f = true := by
        cases hpf : p f
        · exact absurd hpf hbne
        · rfl
      apply h4
      have hany : (cfg.exclude_files_by_pattern.getD []).any (fun p => p f) = true :=
        List.any_eq_true.mpr ⟨p, hp, hb⟩
      simp [ht, hany]

/-- C4: for every commit record and every filter configuration, a file
of the changed-file list of the record survives the filtering of
`parse_commits` iff it passes every configured filter kind (logical
AND, unconfigured kinds skipped): member of include-exact, not a member
of exclude-exact, matches at least one include-pattern (re.match,
anchored at string start), matches no exclude-pattern. -/
theorem c4_filter_correctness (cfg : FilterConfig) (r : RawCommitRecord)
    (f : String) :
    f ∈ (parse_commit_record cfg r).files ↔ f ∈ r.files ∧ passesFilters cfg f := by
  simp only [parse_commit_record, List.mem_filter]
  exact and_congr_right (fun _ => keepFile_iff cfg f)

/-- Witness for C4 at the default (all-None) configuration. -/
theorem c4_filter_correctness_witness :
    "x.py" ∈ (parse_commit_record emptyFilterConfig exampleRecord).files ↔
      "x.py" ∈ exampleRecord.files ∧ passesFilters emptyFilterConfig "x.py" :=
  c4_filter_correctness emptyFilterConfig exampleRecord "x.py"

/-- C7 counterexample: on a store where a.py and b.py each changed once,
both enumeration orders are admissible outputs of the top-25 query (the
SQL orders only by count(*) DESC, with no secondary key), so the output
is not determined and ties are not forced into ascending path order. -/
theorem c7_counterexample :
    topQueryValid exampleTopStore ["a.py", "b.py"] ∧
    topQueryValid exampleTopStore ["b.py", "a.py"] ∧
    (["a.py", "b.py"] : List String) ≠ ["b.py", "a.py"] :=
  ⟨⟨["a.py", "b.py"], by decide, by decide, by decide, rfl⟩,
   ⟨["b.py", "a.py"], by decide, by decide, by decide, rfl⟩, by decide⟩

/-- C7 amended: the top-25 query restricts to files matching LIKE
LIKE pattern %.py, groups commit-file join rows by file, and returns at most 25
distinct group keys in nonincreasing count order; the relative order of
equal-count files (and with it full determinism) is not fixed by the
query, which has no secondary sort key. -/
theorem c7_top_query_properties (st : Store) (r : List String)
    (h : topQueryValid st r) :
    r.Nodup ∧ r.length ≤ 25 ∧
    (∀ f ∈ r, f ∈ pyGroups st ∧ likePy f = true) ∧
    r.Pairwise (fun a b => changeCount st b ≤ changeCount st a) := by
  obtain ⟨full, hnd, hfin, hpw, hr⟩ := h
  subst hr
  refine ⟨hnd.sublist (List.take_sublist _ _), List.length_take_le _ _, ?_,
    hpw.sublist (List.take_sublist _ _)⟩
  intro f hf
  have hfull : f ∈ full := List.mem_of_mem_take hf
  have hgrp : f ∈ pyGroups st := by
    rw [← hfin]
    exact List.mem_toFinset.mpr hfull
  refine ⟨hgrp, ?_⟩
  rcases Finset.mem_image.mp hgrp with ⟨q, hq, hqe⟩
  rcases Finset.mem_filter.mp hq with ⟨_, _, hlike⟩
  rw [← hqe]
  exact hlike

/-- Witness for C7 amended at a concrete admissible output. -/
theorem c7_top_query_properties_witness :
    (["b.py", "a.py"] : List String).Nodup ∧
    (["b.py", "a.py"] : List String).length ≤ 25 ∧
    (∀ f ∈ (["b.py", "a.py"] : List String),
      f ∈ pyGroups exampleTopStore ∧ likePy f = true) ∧
    (["b.py", "a.py"] : List String).Pairwise
      (fun a b => changeCount exampleTopStore b ≤ changeCount exampleTopStore a) :=
  c7_top_query_properties exampleTopStore ["b.py", "a.py"]
    ⟨["b.py", "a.py"], by decide, by decide, by decide, rfl⟩

lemma foldl_min_le_init (xs : List ℕ) (a : ℕ) : xs.foldl Nat.min a ≤ a := by
  induction xs generalizing a with
  | nil => exact le_refl a
  | cons x rest ih => exact (ih (Nat.min a x)).trans (Nat.min_le_left a x)

lemma foldl_min_le_mem (xs : List ℕ) (a c : ℕ) (h : c ∈ xs) :
    xs.foldl Nat.min a ≤ c := by
  induction xs generalizing a with
  | nil => cases h
  | cons x rest ih =>
      rcases List.mem_cons.mp h with rfl | h2
      · exact (foldl_min_le_init rest (Nat.min a c)).trans (Nat.min_le_right a c)
      · exact ih (Nat.min a x) h2

lemma foldl_max_ge_init (xs : List ℕ) (a : ℕ) : a ≤ xs.foldl Nat.max a := by
  induction xs generalizing a with
  | nil => exact le_refl a
  | cons x rest ih => exact (Nat.le_max_left a x).trans (ih (Nat.max a x))

lemma foldl_max_ge_mem (xs : List ℕ) (a c : ℕ) (h : c ∈ xs) :
    c ≤ xs.foldl Nat.max a := by
  induction xs generalizing a with
  | nil => cases h
  | cons x rest ih =>
      rcases List.mem_cons.mp h with rfl | h2
      · exact (Nat.le_max_right a c).trans (foldl_max_ge_init rest (Nat.max a c))
      · exact ih (Nat.max a x) h2

lemma minCount_le_of_mem {l : List ℕ} {c : ℕ} (h : c ∈ l) : minCount l ≤ c := by
  cases l with
  | nil => cases h
  | cons x xs =>
      rcases List.mem_cons.mp h with rfl | h2
      · exact foldl_min_le_init xs c
      · exact foldl_min_le_mem xs x c h2

lemma le_maxCount_of_mem {l : List ℕ} {c : ℕ} (h : c ∈ l) : c ≤ maxCount l := by
  cases l with
  | nil => cases h
  | cons x xs =>
      rcases List.mem_cons.mp h with rfl | h2
      · exact foldl_max_ge_init xs c
      · exact foldl_max_ge_mem xs x c h2

lemma normalizedCounts_bounds {l : List ℕ} {v : ℚ}
    (hv : v ∈ normalizedCounts l) : 0 ≤ v ∧ v ≤ 1 := by
  rw [normalizedCounts, List.mem_map] at hv
  obtain ⟨c, hc, hcv⟩ := hv
  by_cases hlt : maxCount l > minCount l
  · rw [if_pos hlt] at hcv
    rw [← hcv]
    have hmin : minCount l ≤ c := minCount_le_of_mem hc
    have hmax : c ≤ maxCount l := le_maxCount_of_mem hc
    have hden : (0:ℚ) < (maxCount l : ℚ) - (minCount l : ℚ) := by
      rw [sub_pos]
      exact_mod_cast hlt
    constructor
    · refine div_nonneg ?_ hden.le
      rw [sub_nonneg]
      exact_mod_cast hmin
    · rw [div_le_one hden]
      have hcq : (c:ℚ) ≤ (maxCount l : ℚ) := by exact_mod_cast hmax
      linarith
  · rw [if_neg hlt] at hcv
    rw [← hcv]
    norm_num

lemma normalizedCounts_half {l : List ℕ} {v : ℚ}
    (heq : maxCount l = minCount l) (hv : v ∈ normalizedCounts l) : v = 1/2 := by
  rw [normalizedCounts, List.mem_map] at hv
  obtain ⟨c, _, hcv⟩ := hv
  rw [if_neg (by rw [heq]; exact lt_irrefl _)] at hcv
  exact hcv.symm

/-- C8: for a non-empty node list, every normalized heat value computed
by `show_file_dependencies` lies in [0, 1], and when all counts are
equal (max == min, the else-branch guarding against division by zero)
every value is exactly 0.5.  Counts default to 0 for nodes absent from
the change-count mapping. -/
theorem c8_heat_normalization (changes : List (String × ℕ)) (nodes : List String)
    (hne : nodes ≠ []) :
    (∀ v ∈ normalizedCounts (nodeCounts changes nodes), 0 ≤ v ∧ v ≤ 1)
  ∧ (maxCount (nodeCounts changes nodes) = minCount (nodeCounts changes nodes) →
      ∀ v ∈ normalizedCounts (nodeCounts changes nodes), v = 1/2) := by
  have _ := hne
  refine ⟨fun v hv => normalizedCounts_bounds hv, fun heq v hv => normalizedCounts_half heq hv⟩

/-- Witness for C8 on a single node absent from the mapping: count list
[0], all counts equal, value bounds hold. -/
theorem c8_heat_normalization_witness :
    ((["a.py"] : List String) ≠ []) ∧
    (∀ v ∈ normalizedCounts (nodeCounts [] ["a.py"]), 0 ≤ v ∧ v ≤ 1) :=
  ⟨by decide, (c8_heat_normalization [] ["a.py"] (by decide)).1⟩

/-- C9: `parse_commits` builds every `git_commit` without ever assigning
its hash attribute, while `process_git_commits` reads `commit.hash`
before any insert; so on any non-empty parsed commit list the ingestion
raises AttributeError on the very first commit and commits nothing to
the database (the error result carries no store state). -/
theorem c9_parse_commits_missing_hash (cfg : FilterConfig)
    (records : List RawCommitRecord) (st : Store) (hne : records ≠ []) :
    processGitCommits st (parse_commits cfg records) =
      .error "AttributeError: git_commit object has no attribute hash" := by
  cases records with
  | nil => exact absurd rfl hne
  | cons r rest => rfl

/-- Witness for C9 on one concrete raw record. -/
theorem c9_parse_commits_missing_hash_witness :
    processGitCommits emptyStore (parse_commits emptyFilterConfig [exampleRecord]) =
      .error "AttributeError: git_commit object has no attribute hash" :=
  c9_parse_commits_missing_hash emptyFilterConfig [exampleRecord] emptyStore
    (List.cons_ne_nil _ _)

lemma processCommitFiles_rows {h : String} :
    ∀ (files : List String) (s t : Store),
      processCommitFiles s h files = .ok t →
      (∀ p ∈ t.commit_files,
        p ∈ s.commit_files ∨ ∃ f ∈ files, p = (h, "./python/" ++ f))
    ∧ (∀ q ∈ t.files, q ∈ s.files ∨ ∃ f ∈ files, q = "./python/" ++ f) := by
  intro files
  induction files with
  | nil =>
      intro s t hh
      rw [processCommitFiles] at hh
      obtain rfl : s = t := Except.ok.inj hh
      exact ⟨fun p hp => Or.inl hp, fun q hq => Or.inl hq⟩
  | cons f rest ih =>
      intro s t hh
      rw [processCommitFiles] at hh
      cases he : insertCommitFile s h ("./python/" ++ f) with
      | error m => rw [he] at hh; cases hh
      | ok s2 =>
          rw [he] at hh
          obtain ⟨_, hs2⟩ := insertCommitFile_eq_ok he
          obtain ⟨ih1, ih2⟩ := ih s2 t hh
          subst hs2
          constructor
          · intro p hp
            rcases ih1 p hp with hin | ⟨f2, hf2, hpe⟩
            · rcases Finset.mem_insert.mp hin with hpe | hin2
              · exact Or.inr ⟨f, List.mem_cons_self .., hpe⟩
              · exact Or.inl hin2
            · exact Or.inr ⟨f2, List.mem_cons_of_mem _ hf2, hpe⟩
          · intro q hq
            rcases ih2 q hq with hin | ⟨f2, hf2, hqe⟩
            · rcases Finset.mem_insert.mp hin with hqe | hin2
              · exact Or.inr ⟨f, List.mem_cons_self .., hqe⟩
              · exact Or.inl hin2
            · exact Or.inr ⟨f2, List.mem_cons_of_mem _ hf2, hqe⟩

lemma processCommit_rows {s t : Store} {c : git_commit}
    (hc : processCommit s c = .ok t) :
    (∀ p ∈ t.commit_files, p ∈ s.commit_files ∨
       ∃ f ∈ c.files, c.hash = some p.1 ∧ p.2 = "./python/" ++ f)
  ∧ (∀ q ∈ t.files, q ∈ s.files ∨ ∃ f ∈ c.files, q = "./python/" ++ f) := by
  rw [processCommit] at hc
  cases hcc : c.hash with
  | none => rw [hcc] at hc; cases hc
  | some hh =>
      rw [hcc] at hc
      simp only [getAttr] at hc
      by_cases hmem : hasCommitHash s hh = true
      · rw [if_pos hmem] at hc
        obtain rfl : s = t := Except.ok.inj hc
        exact ⟨fun p hp => Or.inl hp, fun q hq => Or.inl hq⟩
      · rw [if_neg hmem] at hc
        obtain ⟨h1, h2⟩ := processCommitFiles_rows c.files _ t hc
        constructor
        · intro p hp
          rcases h1 p hp with hin | ⟨f, hf, hpe⟩
          · exact Or.inl hin
          · subst hpe
            exact Or.inr ⟨f, hf, rfl, rfl⟩
        · intro q hq
          rcases h2 q hq with hin | ⟨f, hf, hqe⟩
          · exact Or.inl hin
          · exact Or.inr ⟨f, hf, hqe⟩

/-- C10: every row that `process_git_commits` adds to commit_files (and
every file row it adds to files) stores the path as ./python/ + f for
some f on the file list of some ingested commit — never the bare f;
pre-existing rows are untouched.  Stored commit paths thus coincide
with dependency-graph paths only when sources were parsed under a
./python/ root. -/
theorem c10_commit_paths_prefixed :
    ∀ (cs : List git_commit) (st t : Store),
      processGitCommits st cs = .ok t →
      (∀ p ∈ t.commit_files, p ∈ st.commit_files ∨
        ∃ c ∈ cs, ∃ f ∈ c.files, c.hash = some p.1 ∧ p.2 = "./python/" ++ f)
    ∧ (∀ q ∈ t.files, q ∈ st.files ∨
        ∃ c ∈ cs, ∃ f ∈ c.files, q = "./python/" ++ f) := by
  intro cs
  induction cs with
  | nil =>
      intro st t h
      rw [processGitCommits] at h
      obtain rfl : st = t := Except.ok.inj h
      exact ⟨fun p hp => Or.inl hp, fun q hq => Or.inl hq⟩
  | cons c rest ih =>
      intro st t h
      rw [processGitCommits] at h
      cases hc : processCommit st c with
      | error m => rw [hc] at h; cases h
      | ok s2 =>
          rw [hc] at h
          obtain ⟨hcf, hfl⟩ := processCommit_rows hc
          obtain ⟨ih1, ih2⟩ := ih s2 t h
          constructor
          · intro p hp
            rcases ih1 p hp with hin | ⟨c2, hc2, f, hf, he1, he2⟩
            · rcases hcf p hin with hin2 | ⟨f, hf, he1, he2⟩
              · exact Or.inl hin2
              · exact Or.inr ⟨c, List.mem_cons_self .., f, hf, he1, he2⟩
            · exact Or.inr ⟨c2, List.mem_cons_of_mem _ hc2, f, hf, he1, he2⟩
          · intro q hq
            rcases ih2 q hq with hin | ⟨c2, hc2, f, hf, he1⟩
            · rcases hfl q hin with hin2 | ⟨f, hf, he1⟩
              · exact Or.inl hin2
              · exact Or.inr ⟨c, List.mem_cons_self .., f, hf, he1⟩
            · exact Or.inr ⟨c2, List.mem_cons_of_mem _ hc2, f, hf, he1⟩

/-- Witness for C10 on the concrete one-commit run: the stored
commit_files row carries the ./python/ prefix. -/
theorem c10_commit_paths_prefixed_witness :
    processGitCommits emptyStore [exampleCommit] = .ok exampleCommitStore ∧
    (∀ p ∈ exampleCommitStore.commit_files, p ∈ emptyStore.commit_files ∨
      ∃ c ∈ [exampleCommit], ∃ f ∈ c.files,
        c.hash = some p.1 ∧ p.2 = "./python/" ++ f) :=
  have hrun : processGitCommits emptyStore [exampleCommit] = .ok exampleCommitStore := by
    decide
  ⟨hrun, (c10_commit_paths_prefixed [exampleCommit] emptyStore exampleCommitStore hrun).1⟩
